import Mathlib

/-!
Verification of the catalog synchronization and normalization routine of
`menu_api.py` (class `MenuManager`): the paginated fetch loop, the
per-item normalization pipeline (category whitelisting, zero-price
filtering, deduplication), the 30-minute cache policy of `refresh_menu`,
and the sorted output of `get_menu`.

Modelling conventions:
* JSON values decoded from the external API are a `JVal`.  JSON numbers
  are modelled as integers (the program only reads integer cents and the
  whitelist compares string ids).
* Timestamps are integer seconds; `timedelta(minutes=30)` is `1800`.
* Dollar prices (`price_cents / 100`, Python true division producing a
  float) are modelled as exact rationals.  For an integer `n`, the float
  `n / 100` equals `0.0` exactly when `n = 0`, so the source's
  `price_dollars == 0` test is decided on the cents value by
  `dollarsZero`; the bridge lemma `dollarsZero_eq_divQ_zero` states the
  agreement with the exact quotient.
* One call of `refresh_menu` is a function of the prior cache state, the
  current time, the `force` flag, and the finite trace of page responses
  the external API would give to the successive requests; a response is
  either the decoded `elements` list or an error (request exception,
  non-2xx status, or undecodable body, which all raise and are caught by
  the one `try/except` of `refresh_menu`).  The result is `none` when
  the trace is too short to settle the pagination loop.
-/

namespace AromaMenu

/-- A decoded JSON value, as handled by the Python code. -/
inductive JVal : Type where
  | null : JVal
  | bool (b : Bool) : JVal
  | num (n : Int) : JVal
  | str (s : String) : JVal
  | arr (xs : List JVal) : JVal
  | obj (fields : List (String × JVal)) : JVal

/-- Canonical key of a hashable Python scalar: Python `==` (and set
membership) identifies `True` with `1` and `False` with `0`. -/
inductive PKey : Type where
  | pnull : PKey
  | pint (n : Int) : PKey
  | pstr (s : String) : PKey
deriving DecidableEq

/-- Scalar key of a `JVal`; `none` for containers (which are unhashable
in Python and are never equal to any scalar the program compares with). -/
def pyKey : JVal → Option PKey
  | .null => some .pnull
  | .bool b => some (.pint (if b then 1 else 0))
  | .num n => some (.pint n)
  | .str s => some (.pstr s)
  | _ => none

/-- Python `==` restricted to the comparisons the program performs:
ids against ids (hashable scalars), category ids against whitelist
strings, and `price_cents == 0`.  Container equality is never consulted
(a container id raises `TypeError` before any comparison, and a
container compared to a scalar is unequal in Python, as here). -/
def pyEq (a b : JVal) : Bool :=
  match pyKey a, pyKey b with
  | some x, some y => decide (x = y)
  | _, _ => false

/-- Python truthiness of a JSON value. -/
def truthy : JVal → Bool
  | .null => false
  | .bool b => b
  | .num n => n != 0
  | .str s => s ≠ ""
  | .arr xs => !xs.isEmpty
  | .obj fields => !fields.isEmpty

/-- Whether a Python value of this JSON shape is hashable (set
membership on an unhashable value raises `TypeError`). -/
def isHashable : JVal → Bool
  | .arr _ => false
  | .obj _ => false
  | _ => true

/-- Python `dict.get(k, d)`: the value at the first matching key, or the
default (keys of a real dict are unique). -/
def lookupD : List (String × JVal) → String → JVal → JVal
  | [], _, d => d
  | p :: rest, k, d => if p.1 == k then p.2 else lookupD rest k d

/-- Python `k in dict`. -/
def hasKey (fs : List (String × JVal)) (k : String) : Bool :=
  fs.any (fun p => p.1 == k)

/-- The whitelist `INCLUDED_CATEGORY_IDS` of `menu_api.py` (lines 22-42). -/
def INCLUDED_CATEGORY_IDS : List String :=
  [ "M17PNQEPG6K02",
    "FY9BQPAQ0NNFP",
    "E5H1DFT9T32VR",
    "FT8HR9VNRQW4R",
    "MEM5GGGW27WX2",
    "FSXP785519PBA",
    "X146DX02VVMG2",
    "07FG0SA6FMFFY",
    "JB8VSZRM49J9P",
    "Z1ZKCQTDR6BKJ",
    "EEZHPBVTD0H7W",
    "M1H649PKCZ5TE",
    "RHV2MKASX5FVA",
    "JVKES871M1PX0",
    "D191C2W2SYCW0",
    "994Q0TTW39AHY",
    "407WNKVYVHS2E",
    "KWZCZRAK0ZE7J",
    "25NPKW5MTBQPA" ]

/-- Python `cat_id in INCLUDED_CATEGORY_IDS` (line 117). -/
def whitelistedB (v : JVal) : Bool :=
  INCLUDED_CATEGORY_IDS.any (fun s => pyEq v (.str s))

/-- The loop of lines 114-121: the first element that is a dict whose
`id` is whitelisted yields `cat.get('name', 'General')`; non-dict
elements and non-whitelisted dicts are passed over. -/
def findCat : List JVal → Option JVal
  | [] => none
  | c :: rest =>
    match c with
    | .obj cf =>
      if whitelistedB (lookupD cf "id" .null) then some (lookupD cf "name" (.str "General"))
      else findCat rest
    | _ => findCat rest

/-- Lines 104-121 applied to `item.get('categories', {})`: `some name`
when `item_included` ends up `True` with `category_name = name`, `none`
when the item is to be skipped as not whitelisted. -/
def resolveCategory (cats : JVal) : Option JVal :=
  match cats with
  | .obj cf =>
    if hasKey cf "elements" then
      match lookupD cf "elements" .null with
      | .arr elems => if elems.isEmpty then none else findCat elems
      | _ => none
    else none
  | _ => none

/-- Python true division `price_cents / 100` (line 101): defined for
numbers (a Python `bool` is an `int`), `TypeError` otherwise. -/
def pyTrueDiv100 : JVal → Except Unit ℚ
  | .num n => .ok ((n : ℚ) / 100)
  | .bool b => .ok (((if b then 1 else 0 : Int) : ℚ) / 100)
  | _ => .error ()

/-- The exact quotient `cents / 100` as a total function on the values
`pyTrueDiv100` accepts. -/
def divQ : JVal → ℚ
  | .num n => (n : ℚ) / 100
  | .bool b => ((if b then 1 else 0 : Int) : ℚ) / 100
  | _ => 0

/-- Decides the source's `price_dollars == 0` (line 129) on the cents
value; `dollarsZero_eq_divQ_zero` proves it agrees with the exact
quotient being zero. -/
def dollarsZero : JVal → Bool
  | .num n => n == 0
  | .bool b => !b
  | _ => false

/-- A cached menu entry, as appended at lines 140-145. -/
structure MenuItem : Type where
  name : JVal
  price : ℚ
  category : JVal
  available : Bool

/-- One iteration of the item loop (lines 98-145) on `item` given the
current `seen_ids`: an exception (`.error`), a skip (`.ok none`), or an
appended `MenuItem` together with the id added to `seen_ids`. -/
def processItem (item : JVal) (seen_ids : List JVal) :
    Except Unit (Option (MenuItem × JVal)) :=
  match item with
  | .obj f =>
    let item_id := lookupD f "id" .null
    let price_cents := lookupD f "price" (.num 0)
    match pyTrueDiv100 price_cents with
    | .error e => .error e
    | .ok price_dollars =>
      match resolveCategory (lookupD f "categories" (.obj [])) with
      | none => .ok none
      | some category_name =>
        if pyEq price_cents (.num 0) || dollarsZero price_cents then .ok none
        else if truthy item_id then
          if isHashable item_id then
            if seen_ids.any (fun e => pyEq e item_id) then .ok none
            else
              .ok (some
                ({ name := lookupD f "name" (.str ""),
                   price := price_dollars,
                   category := category_name,
                   available := !truthy (lookupD f "hidden" (.bool false)) }, item_id))
          else .error ()
        else .ok none
  | _ => .error ()

/-- The whole item loop of lines 98-145: the list built into
`self.menu_cache` and a flag telling whether the loop ran to completion;
an exception leaves the entries appended so far (the `menu_cache` was
already reset to `[]` at line 93) and aborts via the outer `except`. -/
def processLoop : List JVal → List JVal → List MenuItem × Bool
  | [], _ => ([], true)
  | x :: rest, seen =>
    match processItem x seen with
    | .error _ => ([], false)
    | .ok none => processLoop rest seen
    | .ok (some (m, i)) =>
      let r := processLoop rest (i :: seen)
      (m :: r.1, r.2)

/-- One page response of the external API: the decoded `elements` list,
or an error (request exception, non-2xx status, undecodable body). -/
abbrev Page := Except Unit (List JVal)

/-- The pagination loop of lines 67-90, consuming one response per
request; it reports the concatenated raw items (or the propagated
error) together with the offsets of the requests issued, and `none`
when the response trace is exhausted with the loop still running. -/
def fetchLoop (limit : Nat) : List Page → Nat → Option (Except Unit (List JVal) × List Nat)
  | [], _ => none
  | resp :: rest, offset =>
    match resp with
    | .error e => some (.error e, [offset])
    | .ok items =>
      if items.isEmpty then some (.ok [], [offset])
      else if items.length < limit then some (.ok items, [offset])
      else
        match fetchLoop limit rest (offset + limit) with
        | none => none
        | some (res, offs) =>
          match res with
          | .error e => some (.error e, offset :: offs)
          | .ok tail => some (.ok (items ++ tail), offset :: offs)

/-- The mutable state of `MenuManager`: `self.menu_cache` and
`self.last_refresh` (lines 52-53). -/
structure CacheState : Type where
  menu_cache : List MenuItem
  last_refresh : Option Int

/-- `MenuManager.refresh_menu` (lines 56-156): returns the success flag,
the state after the call, and the offsets of the requests issued. -/
def refresh_menu (st : CacheState) (now : Int) (force : Bool) (pages : List Page) :
    Option (Bool × CacheState × List Nat) :=
  if !force && (match st.last_refresh with
                | some t => decide (now - t < 1800)
                | none => false) then
    some (true, st, [])
  else
    match fetchLoop 200 pages 0 with
    | none => none
    | some (.error _, offs) => some (false, st, offs)
    | some (.ok all_items, offs) =>
      match processLoop all_items [] with
      | (items, true) => some (true, { menu_cache := items, last_refresh := some now }, offs)
      | (items, false) => some (false, { menu_cache := items, last_refresh := st.last_refresh }, offs)

/-- Python string comparison: lexicographic on code points. -/
def chLe : List Char → List Char → Bool
  | [], _ => true
  | _ :: _, [] => false
  | a :: as, b :: bs =>
    if a.toNat < b.toNat then true
    else if b.toNat < a.toNat then false
    else chLe as bs

/-- Total preorder on `JVal` used by the sort key: on two strings it is
Python's case-sensitive lexicographic order; Python raises `TypeError`
on a cross-type comparison, which the program never performs (both key
components of every cached item are strings), and the order is totalized
on the remaining pairs by constructor rank so that the sort is defined. -/
def jle (a b : JVal) : Bool :=
  match a, b with
  | .str x, .str y => chLe x.data y.data
  | .null, _ => true
  | _, .null => false
  | .bool _, _ => true
  | _, .bool _ => false
  | .num _, _ => true
  | _, .num _ => false
  | .str _, _ => true
  | _, .str _ => false
  | .arr _, _ => true
  | _, .arr _ => false
  | .obj _, .obj _ => true

/-- The sort key comparison of line 161: ascending on the tuple
`(category, name)`. -/
def keyLE (a b : MenuItem) : Bool :=
  if jle a.category b.category then
    (if jle b.category a.category then jle a.name b.name else true)
  else false

/-- `keyLE` as a relation, for the sorting lemmas. -/
def keyRel (a b : MenuItem) : Prop := keyLE a b = true

instance : DecidableRel keyRel := fun a b => by unfold keyRel; infer_instance

/-- `sorted(self.menu_cache, key=lambda x: (x['category'], x['name']))`
(line 161).  Python's `sorted` is a stable sort; any stable sort under
the same total preorder computes the same list, so insertion sort is
used. -/
def sortMenu (l : List MenuItem) : List MenuItem :=
  List.insertionSort keyRel l

/-- `MenuManager.get_menu` (lines 158-161): a non-forced refresh, then
the cache sorted by `(category, name)`. -/
def get_menu (st : CacheState) (now : Int) (pages : List Page) :
    Option (List MenuItem × Bool × CacheState × List Nat) :=
  match refresh_menu st now false pages with
  | none => none
  | some (ok, st2, offs) => some (sortMenu st2.menu_cache, ok, st2, offs)

/-- The cache states the process can reach: empty at construction
(lines 52-53), then updated only by `refresh_menu` calls (the
constructor itself performs one at line 54). -/
inductive Reachable : CacheState → Prop where
  | init : Reachable { menu_cache := [], last_refresh := none }
  | step {st : CacheState} {now : Int} {force : Bool} {pages : List Page}
      {ok : Bool} {st2 : CacheState} {offs : List Nat} :
      Reachable st → refresh_menu st now force pages = some (ok, st2, offs) →
      Reachable st2

/-- The raw `id` of an item dict (`item.get('id')`, line 99). -/
def idOf : JVal → JVal
  | .obj f => lookupD f "id" .null
  | _ => .null

/-- Specification-side predicate: the item survives the whitelist test,
the zero-price test and the id truthiness test of one loop iteration
(everything except the `seen_ids` lookup). -/
def passesB : JVal → Bool
  | .obj f =>
    (resolveCategory (lookupD f "categories" (.obj []))).isSome
      && !(pyEq (lookupD f "price" (.num 0)) (.num 0) || dollarsZero (lookupD f "price" (.num 0)))
      && truthy (lookupD f "id" .null)
  | _ => false

/-- Specification-side constructor of the `MenuItem` a raw item emits. -/
def emit : JVal → MenuItem
  | .obj f =>
    { name := lookupD f "name" (.str ""),
      price := divQ (lookupD f "price" (.num 0)),
      category := (resolveCategory (lookupD f "categories" (.obj []))).getD (.str "General"),
      available := !truthy (lookupD f "hidden" (.bool false)) }
  | _ => { name := .null, price := 0, category := .null, available := true }

/-- Specification-side dedup: keep each surviving item whose id was not
seen before, first occurrence first. -/
def firstWins : List JVal → List JVal → List JVal
  | [], _ => []
  | x :: rest, seen =>
    if passesB x && !(seen.any (fun e => pyEq e (idOf x))) then
      x :: firstWins rest (idOf x :: seen)
    else firstWins rest seen

/-- Whether a JSON value is a Python number (an `int` or a `bool`). -/
def numericJ : JVal → Bool
  | .num _ => true
  | .bool _ => true
  | _ => false

/-- Well-formedness of a raw item under which one loop iteration cannot
raise: a dict whose `price` (defaulted to `0`) is a number and whose
`id`, when truthy, is hashable. -/
def itemOK : JVal → Bool
  | .obj f =>
    numericJ (lookupD f "price" (.num 0))
      && (!truthy (lookupD f "id" .null) || isHashable (lookupD f "id" .null))
  | _ => false

/-- The `cat.get('name', 'General')` read of a matched category
reference (line 119). -/
def refNameD : JVal → JVal
  | .obj cf => lookupD cf "name" (.str "General")
  | _ => .str "General"

/-- Whether a category reference element matches at line 117: a dict
whose `id` is in the whitelist. -/
def isWLRef : JVal → Bool
  | .obj cf => whitelistedB (lookupD cf "id" .null)
  | _ => false

/-- A whitelisted category reference used by the concrete examples. -/
def exCatBiryani : JVal :=
  .obj [("id", .str "RHV2MKASX5FVA"), ("name", .str "Biryani Specials")]

/-- A concrete well-formed raw item whose name carries an ordinal
number, priced 10.99, in a whitelisted category. -/
def exItem67 : JVal :=
  .obj [("id", .str "I1"), ("name", .str "67. Chicken Biryani"), ("price", .num 1099),
        ("categories", .obj [("elements", .arr [exCatBiryani])])]

/-- The menu entry `exItem67` emits. -/
def exEmitted67 : MenuItem :=
  { name := .str "67. Chicken Biryani", price := divQ (.num 1099),
    category := .str "Biryani Specials", available := true }

/-- A raw item whose `price` field is a string: computing
`price_cents / 100` at line 101 raises `TypeError`. -/
def exBadItem : JVal :=
  .obj [("id", .str "B1"), ("price", .str "oops"),
        ("categories", .obj [("elements", .arr [exCatBiryani])])]

/-- A cached entry standing for the result of an earlier refresh. -/
def exOldEntry : MenuItem :=
  { name := .str "Old Dish", price := divQ (.num 500),
    category := .str "Desserts", available := true }

/-- A prior cache holding one entry, last refreshed at time 0. -/
def exState1 : CacheState := { menu_cache := [exOldEntry], last_refresh := some 0 }

/-- First raw item of the dedup counterexample: id `"X"`, price 0. -/
def exDupA : JVal :=
  .obj [("id", .str "X"), ("name", .str "first"), ("price", .num 0),
        ("categories", .obj [("elements", .arr [exCatBiryani])])]

/-- Second raw item of the dedup counterexample: id `"X"`, price 5.00. -/
def exDupB : JVal :=
  .obj [("id", .str "X"), ("name", .str "second"), ("price", .num 500),
        ("categories", .obj [("elements", .arr [exCatBiryani])])]

/-- Cached items of the sorting example. -/
def exSortBX : MenuItem :=
  { name := .str "X", price := (5 : ℚ), category := .str "B", available := true }

/-- Cached item category A name Z of the sorting example. -/
def exSortAZ : MenuItem :=
  { name := .str "Z", price := (5 : ℚ), category := .str "A", available := true }

/-- Cached item category A name A of the sorting example. -/
def exSortAA : MenuItem :=
  { name := .str "A", price := (5 : ℚ), category := .str "A", available := true }

/-- A fresh cache (refreshed at time 0) holding the sorting example. -/
def exSortState : CacheState :=
  { menu_cache := [exSortBX, exSortAZ, exSortAA], last_refresh := some 0 }

/-- Fields of a raw item whose `id` is the empty string. -/
def exNoIdFields : List (String × JVal) :=
  [("id", .str ""), ("name", .str "No Id Dish"), ("price", .num 300),
   ("categories", .obj [("elements", .arr [exCatBiryani])])]

/-- A whitelisted category reference with no `name` field. -/
def exCatNoName : JVal := .obj [("id", .str "KWZCZRAK0ZE7J")]

/-- Fields of a raw item whose only (whitelisted) category reference
lacks a name. -/
def exNoNameFields : List (String × JVal) :=
  [("id", .str "N1"), ("name", .str "Gulab Jamun"), ("price", .num 450),
   ("categories", .obj [("elements", .arr [exCatNoName])])]

/-- The entry `exNoNameFields` emits: category defaults to General. -/
def exEmittedNoName : MenuItem :=
  { name := .str "Gulab Jamun", price := divQ (.num 450),
    category := .str "General", available := true }

/-- A category reference whose id is not in the whitelist. -/
def exCatUnknown : JVal := .obj [("id", .str "ZZZZZZZZZZZZZ"), ("name", .str "Catering")]

/-- A whitelisted category reference named Desserts. -/
def exCatDesserts : JVal := .obj [("id", .str "KWZCZRAK0ZE7J"), ("name", .str "Desserts")]

/-- Fields of a raw item with two category references of which only the
second is whitelisted. -/
def exMultiRefFields : List (String × JVal) :=
  [("id", .str "M1"), ("name", .str "Rasmalai"), ("price", .num 550),
   ("categories", .obj [("elements", .arr [exCatUnknown, exCatDesserts])])]

/-- The entry `exMultiRefFields` emits: the matching reference names it. -/
def exEmittedMultiRef : MenuItem :=
  { name := .str "Rasmalai", price := divQ (.num 550),
    category := .str "Desserts", available := true }

/-- Fields of a raw item whose only category reference is not
whitelisted. -/
def exOnlyUnknownFields : List (String × JVal) :=
  [("id", .str "U1"), ("name", .str "Party Tray"), ("price", .num 9900),
   ("categories", .obj [("elements", .arr [exCatUnknown])])]

/-- Code-point comparison is total. -/
theorem chLe_total : ∀ x y, chLe x y = true ∨ chLe y x = true := by
  intro x
  induction x with
  | nil => intro y; left; rfl
  | cons a as ih =>
    intro y
    cases y with
    | nil => right; rfl
    | cons b bs =>
      simp only [chLe]
      rcases Nat.lt_trichotomy a.toNat b.toNat with h | h | h
      · left; simp [h]
      · rcases ih bs with h2 | h2
        · left; simp [h, h2]
        · right; simp [h, h2]
      · right; simp [h, Nat.lt_asymm h]

/-- Code-point comparison is transitive. -/
theorem chLe_trans : ∀ x y z, chLe x y = true → chLe y z = true → chLe x z = true := by
  intro x
  induction x with
  | nil => intro y z _ _; rfl
  | cons a as ih =>
    intro y z h1 h2
    cases y with
    | nil => simp [chLe] at h1
    | cons b bs =>
      cases z with
      | nil => simp [chLe] at h2
      | cons c cs =>
        simp only [chLe] at h1 h2 ⊢
        by_cases hab : a.toNat < b.toNat
        · by_cases hbc : b.toNat < c.toNat
          · simp [Nat.lt_trans hab hbc]
          · rw [if_neg hbc] at h2
            by_cases hcb : c.toNat < b.toNat
            · rw [if_pos hcb] at h2; exact absurd h2 (by simp)
            · have hac : a.toNat < c.toNat := by omega
              simp [hac]
        · rw [if_neg hab] at h1
          by_cases hba : b.toNat < a.toNat
          · rw [if_pos hba] at h1; exact absurd h1 (by simp)
          · rw [if_neg hba] at h1
            by_cases hbc : b.toNat < c.toNat
            · have hac : a.toNat < c.toNat := by omega
              simp [hac]
            · rw [if_neg hbc] at h2
              by_cases hcb : c.toNat < b.toNat
              · rw [if_pos hcb] at h2; exact absurd h2 (by simp)
              · rw [if_neg hcb] at h2
                have hac1 : ¬ a.toNat < c.toNat := by omega
                have hac2 : ¬ c.toNat < a.toNat := by omega
                rw [if_neg hac1, if_neg hac2]
                exact ih bs cs h1 h2

/-- The sort key preorder on values is total. -/
theorem jle_total : ∀ a b : JVal, jle a b = true ∨ jle b a = true := by
  intro a b
  cases a <;> cases b <;> simp [jle]
  exact chLe_total _ _

/-- The sort key preorder on values is transitive. -/
theorem jle_trans : ∀ a b c : JVal, jle a b = true → jle b c = true → jle a c = true := by
  intro a b c h1 h2
  cases a <;> cases b <;> cases c <;> simp_all [jle]
  exact chLe_trans _ _ _ h1 h2

/-- The tuple comparison `keyLE` is total. -/
theorem keyLE_total : ∀ a b : MenuItem, keyLE a b = true ∨ keyLE b a = true := by
  intro a b
  unfold keyLE
  by_cases hab : jle a.category b.category
  · by_cases hba : jle b.category a.category
    · rcases jle_total a.name b.name with h | h
      · left; simp [hab, hba, h]
      · right; simp [hab, hba, h]
    · left; simp [hab, hba]
  · rcases jle_total a.category b.category with h | h
    · exact absurd h hab
    · right; simp [h, hab]

/-- The tuple comparison `keyLE` is transitive. -/
theorem keyLE_trans : ∀ a b c : MenuItem,
    keyLE a b = true → keyLE b c = true → keyLE a c = true := by
  intro a b c h1 h2
  unfold keyLE at h1 h2 ⊢
  by_cases hab : jle a.category b.category
  swap
  · simp [hab] at h1
  by_cases hbc : jle b.category c.category
  swap
  · simp [hbc] at h2
  have hac : jle a.category c.category = true := jle_trans _ _ _ hab hbc
  rw [if_pos hac]
  by_cases hca : jle c.category a.category
  · have hba : jle b.category a.category = true :=
      jle_trans _ _ _ hbc hca
    have hcb : jle c.category b.category = true :=
      jle_trans _ _ _ hca hab
    rw [if_pos hab, if_pos hba] at h1
    rw [if_pos hbc, if_pos hcb] at h2
    rw [if_pos hca]
    exact jle_trans _ _ _ h1 h2
  · rw [if_neg hca]

/-- Python scalar equality is symmetric. -/
theorem pyEq_symm (a b : JVal) : pyEq a b = pyEq b a := by
  unfold pyEq
  cases h1 : pyKey a <;> cases h2 : pyKey b <;> simp
  exact ⟨fun h => h.symm, fun h => h.symm⟩

/-- Python scalar equality is transitive. -/
theorem pyEq_trans {a b c : JVal} (h1 : pyEq a b = true) (h2 : pyEq b c = true) :
    pyEq a c = true := by
  unfold pyEq at *
  cases ka : pyKey a <;> rw [ka] at h1 <;> cases kb : pyKey b <;> rw [kb] at h1 h2 <;>
    cases kc : pyKey c <;> rw [kc] at h2 <;> simp_all

/-- The source tests `price_dollars == 0` on the true quotient
`price_cents / 100`; on the numbers the division accepts, `dollarsZero`
decides exactly that test. -/
theorem dollarsZero_eq_divQ_zero (v : JVal) (h : numericJ v = true) :
    dollarsZero v = true ↔ divQ v = 0 := by
  cases v with
  | bool b => cases b <;> simp [dollarsZero, divQ]
  | num n =>
    simp only [dollarsZero, divQ, beq_iff_eq]
    rw [div_eq_zero_iff]
    norm_num
  | null => simp [numericJ] at h
  | str s => simp [numericJ] at h
  | arr xs => simp [numericJ] at h
  | obj fs => simp [numericJ] at h

/-- On the numbers it accepts, `pyTrueDiv100` returns the exact
quotient. -/
theorem pyTrueDiv100_ok (v : JVal) (h : numericJ v = true) :
    pyTrueDiv100 v = .ok (divQ v) := by
  cases v <;> simp_all [numericJ, pyTrueDiv100, divQ]

/-- A price that survives the zero test has a nonzero dollar value. -/
theorem divQ_ne_zero (v : JVal) (h : numericJ v = true) (hz : dollarsZero v = false) :
    divQ v ≠ 0 := by
  intro hq
  rw [← dollarsZero_eq_divQ_zero v h] at hq
  rw [hz] at hq
  exact Bool.false_ne_true hq

/-- Inversion of a successful division: the argument was numeric and
the result is the exact quotient. -/
theorem pyTrueDiv100_inv {v : JVal} {q : ℚ} (h : pyTrueDiv100 v = .ok q) :
    numericJ v = true ∧ q = divQ v := by
  cases v with
  | num n => simpa [pyTrueDiv100, numericJ, divQ] using h.symm
  | bool b => simpa [pyTrueDiv100, numericJ, divQ] using h.symm
  | null => simp [pyTrueDiv100] at h
  | str s => simp [pyTrueDiv100] at h
  | arr xs => simp [pyTrueDiv100] at h
  | obj fs => simp [pyTrueDiv100] at h

/-- Everything one loop iteration guarantees about an entry it appends:
the entry is built verbatim from the raw fields, its price is the
nonzero exact quotient, its category is the resolved whitelisted one,
and the recorded id is the raw truthy id, unseen so far. -/
theorem processItem_emits {x : JVal} {s : List JVal} {m : MenuItem} {i : JVal}
    (h : processItem x s = .ok (some (m, i))) :
    ∃ f, x = .obj f ∧
      m.name = lookupD f "name" (.str "") ∧
      m.price = divQ (lookupD f "price" (.num 0)) ∧
      m.price ≠ 0 ∧
      resolveCategory (lookupD f "categories" (.obj [])) = some m.category ∧
      m.available = !truthy (lookupD f "hidden" (.bool false)) ∧
      i = lookupD f "id" .null ∧
      truthy i = true ∧
      s.any (fun e => pyEq e i) = false := by
  cases x with
  | obj f =>
    refine ⟨f, rfl, ?_⟩
    simp only [processItem] at h
    split at h
    · exact absurd h (by simp)
    · rename_i q hdiv
      split at h
      · exact absurd h (by simp)
      · rename_i cname hcat
        split at h
        · exact absurd h (by simp)
        · rename_i hz
          split at h
          swap
          · exact absurd h (by simp)
          · rename_i ht
            split at h
            swap
            · exact absurd h (by simp)
            · rename_i hh
              split at h
              · exact absurd h (by simp)
              · rename_i hseen
                simp only [Except.ok.injEq, Option.some.injEq, Prod.mk.injEq] at h
                obtain ⟨hm, hi⟩ := h
                obtain ⟨hnum, hq⟩ := pyTrueDiv100_inv hdiv
                simp only [Bool.not_eq_true, Bool.or_eq_false_iff] at hz
                simp only [Bool.not_eq_true] at hseen
                subst hm
                subst hi
                refine ⟨rfl, hq, ?_, ?_, rfl, rfl, ?_, hseen⟩
                · rw [hq]; exact divQ_ne_zero _ hnum hz.2
                · rw [hcat]
                · exact ht
  | null => exact absurd h (by simp [processItem])
  | bool b => exact absurd h (by simp [processItem])
  | num n => exact absurd h (by simp [processItem])
  | str s2 => exact absurd h (by simp [processItem])
  | arr xs => exact absurd h (by simp [processItem])

/-- On a well-formed item, one loop iteration never raises: it appends
`emit x` and records `idOf x` exactly when the item survives the
whitelist, zero-price and truthiness tests and its id is unseen. -/
theorem processItem_ok {x : JVal} (hx : itemOK x = true) (s : List JVal) :
    processItem x s =
      .ok (if passesB x && !(s.any (fun e => pyEq e (idOf x))) then
             some (emit x, idOf x)
           else none) := by
  cases x with
  | obj f =>
    simp only [itemOK, Bool.and_eq_true] at hx
    obtain ⟨hnum, hid⟩ := hx
    simp only [processItem, passesB, emit, idOf]
    rw [pyTrueDiv100_ok _ hnum]
    cases hcat : resolveCategory (lookupD f "categories" (.obj [])) with
    | none => simp
    | some cname =>
      simp only [Option.isSome_some, Bool.true_and]
      by_cases hz : (pyEq (lookupD f "price" (.num 0)) (.num 0)
          || dollarsZero (lookupD f "price" (.num 0))) = true
      · simp [hz]
      · rw [Bool.not_eq_true] at hz
        simp only [hz, Bool.false_eq_true, if_false, Bool.not_false, Bool.true_and]
        by_cases ht : truthy (lookupD f "id" .null) = true
        · have hh : isHashable (lookupD f "id" .null) = true := by
            rcases Bool.or_eq_true_iff.mp hid with h2 | h2
            · rw [ht] at h2; simp at h2
            · exact h2
          simp only [ht, if_true, hh, Bool.and_true]
          by_cases hseen : (s.any (fun e => pyEq e (lookupD f "id" .null))) = true
          · simp [hseen]
          · rw [Bool.not_eq_true] at hseen
            simp [hseen, hcat]
        · rw [Bool.not_eq_true] at ht
          simp [ht]
  | null => simp [itemOK] at hx
  | bool b => simp [itemOK] at hx
  | num n => simp [itemOK] at hx
  | str s2 => simp [itemOK] at hx
  | arr xs => simp [itemOK] at hx

/-- On well-formed items the whole loop runs to completion and builds
exactly the entries of the surviving first occurrences, in order. -/
theorem processLoop_eq_firstWins :
    ∀ (l s : List JVal), (∀ x ∈ l, itemOK x = true) →
      processLoop l s = ((firstWins l s).map emit, true) := by
  intro l
  induction l with
  | nil => intro s _; rfl
  | cons x rest ih =>
    intro s h
    have hx := h x (List.mem_cons_self ..)
    have hrest : ∀ y ∈ rest, itemOK y = true := fun y hy => h y (List.mem_cons_of_mem _ hy)
    simp only [processLoop, firstWins]
    rw [processItem_ok hx s]
    by_cases hc : (passesB x && !(s.any (fun e => pyEq e (idOf x)))) = true
    · simp only [hc, if_true]
      rw [ih (idOf x :: s) hrest]
      simp
    · rw [Bool.not_eq_true] at hc
      simp only [hc, Bool.false_eq_true, if_false]
      exact ih s hrest

/-- Only surviving items are kept by the dedup pass. -/
theorem mem_firstWins_passes :
    ∀ {l s x}, x ∈ firstWins l s → passesB x = true := by
  intro l
  induction l with
  | nil => intro s x h; simp [firstWins] at h
  | cons y rest ih =>
    intro s x h
    simp only [firstWins] at h
    by_cases hc : (passesB y && !(s.any (fun e => pyEq e (idOf y)))) = true
    · rw [if_pos hc] at h
      rcases List.mem_cons.mp h with h2 | h2
      · subst h2; exact (Bool.and_eq_true ..).mp hc |>.1
      · exact ih h2
    · rw [if_neg hc] at h
      exact ih h

/-- Every entry the loop builds comes from a successful iteration on
some item of the input list. -/
theorem processLoop_mem :
    ∀ (l s : List JVal) (m : MenuItem), m ∈ (processLoop l s).1 →
      ∃ x s2 i, x ∈ l ∧ processItem x s2 = .ok (some (m, i)) := by
  intro l
  induction l with
  | nil => intro s m h; simp [processLoop] at h
  | cons x rest ih =>
    intro s m h
    simp only [processLoop] at h
    cases hpi : processItem x s with
    | error e => rw [hpi] at h; simp at h
    | ok r =>
      rw [hpi] at h
      cases r with
      | none =>
        obtain ⟨y, s2, i, hy, he⟩ := ih s m h
        exact ⟨y, s2, i, List.mem_cons_of_mem _ hy, he⟩
      | some p =>
        obtain ⟨m0, i0⟩ := p
        simp only at h
        rcases List.mem_cons.mp h with h2 | h2
        · subst h2; exact ⟨x, s, i0, List.mem_cons_self .., hpi⟩
        · obtain ⟨y, s2, i, hy, he⟩ := ih (i0 :: s) m h2
          exact ⟨y, s2, i, List.mem_cons_of_mem _ hy, he⟩

/-- No entry the loop ever appends has price zero, also when the loop
aborts partway. -/
theorem processLoop_price :
    ∀ (l s : List JVal) (m : MenuItem), m ∈ (processLoop l s).1 → m.price ≠ 0 := by
  intro l s m h
  obtain ⟨x, s2, i, _, he⟩ := processLoop_mem l s m h
  obtain ⟨f, _, _, _, hp, _⟩ := processItem_emits he
  exact hp

/-- The pagination loop issues at least one request when a response is
available. -/
theorem fetchLoop_offs_ne_nil :
    ∀ (limit : Nat) (p : Page) (rest : List Page) (off : Nat) (res : Except Unit (List JVal))
      (offs : List Nat), fetchLoop limit (p :: rest) off = some (res, offs) → offs ≠ [] := by
  intro limit p rest off res offs h
  cases p with
  | error e =>
    simp only [fetchLoop, Option.some.injEq, Prod.mk.injEq] at h
    simp [← h.2]
  | ok items =>
    simp only [fetchLoop] at h
    by_cases h1 : items.isEmpty
    · rw [if_pos h1] at h
      simp only [Option.some.injEq, Prod.mk.injEq] at h; simp [← h.2]
    · rw [if_neg h1] at h
      by_cases h2 : items.length < limit
      · rw [if_pos h2] at h
        simp only [Option.some.injEq, Prod.mk.injEq] at h; simp [← h.2]
      · rw [if_neg h2] at h
        cases hr : fetchLoop limit rest (off + limit) with
        | none => rw [hr] at h; simp at h
        | some pr =>
          rw [hr] at h
          obtain ⟨res2, offs2⟩ := pr
          cases res2 <;> simp only [Option.some.injEq, Prod.mk.injEq] at h <;> simp [← h.2]

/-- The matching loop over the category references equals a first-match
search. -/
theorem findCat_eq_find :
    ∀ elems, findCat elems = (elems.find? isWLRef).map refNameD := by
  intro elems
  induction elems with
  | nil => rfl
  | cons c rest ih =>
    cases c with
    | obj cf =>
      by_cases hw : whitelistedB (lookupD cf "id" .null) = true
      · simp [findCat, List.find?_cons, isWLRef, hw, refNameD]
      · rw [Bool.not_eq_true] at hw
        simp [findCat, List.find?_cons, isWLRef, hw, ih]
    | null => simpa [findCat, List.find?_cons, isWLRef] using ih
    | bool b => simpa [findCat, List.find?_cons, isWLRef] using ih
    | num n => simpa [findCat, List.find?_cons, isWLRef] using ih
    | str s => simpa [findCat, List.find?_cons, isWLRef] using ih
    | arr xs => simpa [findCat, List.find?_cons, isWLRef] using ih

/-- `dict.get` falls back to the default when the key is absent. -/
theorem lookupD_of_not_hasKey :
    ∀ (fs : List (String × JVal)) (k : String) (d : JVal),
      hasKey fs k = false → lookupD fs k d = d := by
  intro fs k d h
  induction fs with
  | nil => rfl
  | cons p rest ih =>
    simp only [hasKey, List.any_cons, Bool.or_eq_false_iff] at h
    simp only [lookupD, h.1, Bool.false_eq_true, if_false]
    exact ih (by simp [hasKey, h.2])

/-- Once some id equivalent to `i` is in `seen_ids`, no later item with
an id equivalent to `i` is ever kept. -/
theorem firstWins_filter_seen :
    ∀ (l s : List JVal) (i : JVal), s.any (fun e => pyEq e i) = true →
      (firstWins l s).filter (fun y => pyEq (idOf y) i) = [] := by
  intro l
  induction l with
  | nil => intro s i _; rfl
  | cons x rest ih =>
    intro s i hs
    simp only [firstWins]
    by_cases hc : (passesB x && !(s.any (fun e => pyEq e (idOf x)))) = true
    · rw [if_pos hc]
      have hnotx : pyEq (idOf x) i = false := by
        by_contra hx
        rw [Bool.not_eq_false] at hx
        obtain ⟨e, he, hei⟩ := List.any_eq_true.mp hs
        have h1 : pyEq i (idOf x) = true := pyEq_symm (idOf x) i ▸ hx
        have h2 : pyEq e (idOf x) = true := pyEq_trans hei h1
        have h3 : s.any (fun e => pyEq e (idOf x)) = true := List.any_eq_true.mpr ⟨e, he, h2⟩
        rw [Bool.and_eq_true, h3] at hc
        simp at hc
      rw [List.filter_cons]
      simp only [hnotx, Bool.false_eq_true, if_false]
      exact ih (idOf x :: s) i (by simp [List.any_cons, hs])
    · rw [if_neg hc]
      exact ih s i hs

/-- Among the items an id class equivalent to `i` contributes, the dedup
pass keeps exactly the first surviving occurrence. -/
theorem firstWins_filter :
    ∀ (l s : List JVal) (i : JVal), s.any (fun e => pyEq e i) = false →
      (firstWins l s).filter (fun y => pyEq (idOf y) i) =
        ((l.filter passesB).filter (fun y => pyEq (idOf y) i)).take 1 := by
  intro l
  induction l with
  | nil => intro s i _; rfl
  | cons x rest ih =>
    intro s i hs
    by_cases hp : passesB x = true
    · by_cases hseen : (s.any (fun e => pyEq e (idOf x))) = true
      · have hc : ¬ (passesB x && !(s.any (fun e => pyEq e (idOf x)))) = true := by
          simp [hseen]
        rw [firstWins, if_neg hc]
        have hnotx : pyEq (idOf x) i = false := by
          by_contra hxx
          rw [Bool.not_eq_false] at hxx
          obtain ⟨e, he, hex⟩ := List.any_eq_true.mp hseen
          have h1 : pyEq e i = true := pyEq_trans hex hxx
          have h2 : s.any (fun e => pyEq e i) = true := List.any_eq_true.mpr ⟨e, he, h1⟩
          rw [h2] at hs
          cases hs
        simp only [List.filter_cons, hp, if_true, hnotx, Bool.false_eq_true, if_false]
        exact ih s i hs
      · rw [Bool.not_eq_true] at hseen
        have hc : (passesB x && !(s.any (fun e => pyEq e (idOf x)))) = true := by
          simp [hp, hseen]
        rw [firstWins, if_pos hc]
        by_cases hxi : pyEq (idOf x) i = true
        · simp only [List.filter_cons, hp, if_true, hxi]
          have h2 : (idOf x :: s).any (fun e => pyEq e i) = true := by
            simp [List.any_cons, hxi]
          rw [firstWins_filter_seen rest (idOf x :: s) i h2]
          simp
        · rw [Bool.not_eq_true] at hxi
          simp only [List.filter_cons, hp, if_true, hxi, Bool.false_eq_true, if_false]
          have h2 : (idOf x :: s).any (fun e => pyEq e i) = false := by
            simp [List.any_cons, hxi, hs]
          exact ih (idOf x :: s) i h2
    · rw [Bool.not_eq_true] at hp
      have hc : ¬ (passesB x && !(s.any (fun e => pyEq e (idOf x)))) = true := by
        simp [hp]
      rw [firstWins, if_neg hc]
      simp only [List.filter_cons, hp, Bool.false_eq_true, if_false]
      exact ih s i hs

/-- Exhaustive description of one `refresh_menu` call: a fresh-cache
early return, a fetch-phase failure, or a fetch followed by the item
loop, whose completion flag is the returned success and whose output is
the new cache. -/
theorem refresh_cases {st : CacheState} {now : Int} {force : Bool} {pages : List Page}
    {ok : Bool} {st2 : CacheState} {offs : List Nat}
    (h : refresh_menu st now force pages = some (ok, st2, offs)) :
    (ok = true ∧ st2 = st ∧ offs = []) ∨
    (ok = false ∧ st2 = st ∧ ∃ e, fetchLoop 200 pages 0 = some (.error e, offs)) ∨
    (∃ items, fetchLoop 200 pages 0 = some (.ok items, offs) ∧
       ok = (processLoop items []).2 ∧
       st2.menu_cache = (processLoop items []).1 ∧
       ((processLoop items []).2 = true → st2.last_refresh = some now) ∧
       ((processLoop items []).2 = false → st2.last_refresh = st.last_refresh)) := by
  unfold refresh_menu at h
  by_cases hguard : (!force && (match st.last_refresh with
      | some t => decide (now - t < 1800)
      | none => false)) = true
  · rw [if_pos hguard] at h
    left
    simp only [Option.some.injEq, Prod.mk.injEq] at h
    exact ⟨h.1.symm, h.2.1.symm, h.2.2.symm⟩
  · rw [if_neg hguard] at h
    cases hfl : fetchLoop 200 pages 0 with
    | none => rw [hfl] at h; cases h
    | some pr =>
      rw [hfl] at h
      obtain ⟨res, offs2⟩ := pr
      cases res with
      | error e =>
        right; left
        simp only [Option.some.injEq, Prod.mk.injEq] at h
        refine ⟨h.1.symm, h.2.1.symm, e, ?_⟩
        rw [← h.2.2]
      | ok items =>
        right; right
        dsimp only at h
        cases hloop : processLoop items [] with
        | mk cache flag =>
          rw [hloop] at h
          cases flag with
          | true =>
            dsimp only at h
            simp only [Option.some.injEq, Prod.mk.injEq] at h
            obtain ⟨hok, hst, hoffs⟩ := h
            refine ⟨items, by rw [← hoffs], ?_, ?_, ?_, ?_⟩
            · rw [hloop, ← hok]
            · rw [← hst, hloop]
            · intro _; rw [← hst]
            · intro hf; rw [hloop] at hf; cases hf
          | false =>
            dsimp only at h
            simp only [Option.some.injEq, Prod.mk.injEq] at h
            obtain ⟨hok, hst, hoffs⟩ := h
            refine ⟨items, by rw [← hoffs], ?_, ?_, ?_, ?_⟩
            · rw [hloop, ← hok]
            · rw [← hst, hloop]
            · intro hf; rw [hloop] at hf; cases hf
            · intro _; rw [← hst]

/-- Claim C1 is false on the code as stated: a refresh whose fetched
data fails to process (here an item whose `price` is a string, raising
`TypeError` at line 101) returns failure yet does not leave the cached
item list as it was: `menu_cache` was already reset at line 93, so the
one-entry cache of the prior state is replaced by the partial (here
empty) list, while `last_refresh` alone is preserved. -/
theorem refresh_failure_clobbers_cache :
    refresh_menu exState1 10 true [Except.ok [exBadItem]] =
      some (false, { menu_cache := [], last_refresh := some 0 }, [0]) ∧
    exState1.menu_cache.length = 1 :=
  ⟨rfl, rfl⟩

/-- Claim C1 (amended): a refresh that returns failure never changes
`last_refresh`, and when the failure arose in the page requests
themselves the whole prior state is kept; a refresh that fails while
processing fetched data keeps the timestamp but may leave the partially
built list as the cache; a refresh that returns success either served
the still-fresh cache unchanged without a request, or replaced the
cache entirely with the fully processed result of its one fetch cycle
and stamped the current time. -/
theorem refresh_atomicity (st : CacheState) (now : Int) (force : Bool) (pages : List Page)
    (ok : Bool) (st2 : CacheState) (offs : List Nat)
    (h : refresh_menu st now force pages = some (ok, st2, offs)) :
    (ok = false → st2.last_refresh = st.last_refresh) ∧
    (ok = false → (∃ offs2, fetchLoop 200 pages 0 = some (.error (), offs2)) → st2 = st) ∧
    (ok = true → (st2 = st ∧ offs = []) ∨
      ∃ items, fetchLoop 200 pages 0 = some (.ok items, offs) ∧
        (processLoop items []).2 = true ∧
        st2 = { menu_cache := (processLoop items []).1, last_refresh := some now }) := by
  rcases refresh_cases h with ⟨hok, hst, hoffs⟩ | ⟨hok, hst, e, hfl⟩ |
    ⟨items, hfl, hok, hmc, hl1, hl0⟩
  · refine ⟨?_, ?_, ?_⟩
    · intro hf; rw [hok] at hf; cases hf
    · intro hf; rw [hok] at hf; cases hf
    · intro _; exact Or.inl ⟨hst, hoffs⟩
  · refine ⟨?_, ?_, ?_⟩
    · intro _; rw [hst]
    · intro _ _; exact hst
    · intro ht; rw [hok] at ht; cases ht
  · refine ⟨?_, ?_, ?_⟩
    · intro hf
      exact hl0 (by rw [← hok]; exact hf)
    · rintro hf ⟨offs2, hfl2⟩
      rw [hfl] at hfl2
      simp at hfl2
    · intro ht
      right
      refine ⟨items, hfl, by rw [← hok]; exact ht, ?_⟩
      have hlr := hl1 (by rw [← hok]; exact ht)
      cases st2 with
      | mk mc lr =>
        simp only at hmc hlr
        rw [hmc, hlr]

/-- Witness for the amended claim C1, at a prior one-entry cache and a
trace whose first request fails. -/
theorem refresh_atomicity_witness :
    (refresh_menu exState1 999999 false [Except.error ()] = some (false, exState1, [0])) ∧
    ((false = false → exState1.last_refresh = exState1.last_refresh) ∧
     (false = false →
        (∃ offs2, fetchLoop 200 [Except.error ()] 0 = some (.error (), offs2)) →
        exState1 = exState1) ∧
     (false = true → (exState1 = exState1 ∧ [0] = ([] : List Nat)) ∨
       ∃ items, fetchLoop 200 [Except.error ()] 0 = some (.ok items, [0]) ∧
         (processLoop items []).2 = true ∧
         exState1 = { menu_cache := (processLoop items []).1, last_refresh := some 999999 })) :=
  ⟨rfl, refresh_atomicity exState1 999999 false [Except.error ()] false exState1 [0] rfl⟩

/-- Claim C3: a non-forced refresh less than 30 minutes after the last
one returns success immediately, issuing no request and leaving the
state untouched; from 30 minutes on it performs the external fetch
(issues at least one request). -/
theorem freshness_window (st : CacheState) (t now : Int) (pages : List Page)
    (hlr : st.last_refresh = some t) :
    (now - t < 1800 → refresh_menu st now false pages = some (true, st, [])) ∧
    (1800 ≤ now - t → ∀ ok st2 offs,
       refresh_menu st now false pages = some (ok, st2, offs) → offs ≠ []) := by
  constructor
  · intro hfresh
    unfold refresh_menu
    rw [hlr]
    simp [hfresh]
  · intro hstale ok st2 offs h
    unfold refresh_menu at h
    rw [hlr] at h
    have hd : decide (now - t < 1800) = false := decide_eq_false (by omega)
    simp only [hd, Bool.not_false, Bool.true_and, Bool.false_eq_true, if_false] at h
    cases pages with
    | nil => simp [fetchLoop] at h
    | cons p rest =>
      cases hf : fetchLoop 200 (p :: rest) 0 with
      | none => rw [hf] at h; cases h
      | some pr =>
        rw [hf] at h
        obtain ⟨res, offs2⟩ := pr
        have hne := fetchLoop_offs_ne_nil 200 p rest 0 res offs2 hf
        cases res with
        | error e =>
          simp only [Option.some.injEq, Prod.mk.injEq] at h
          rw [← h.2.2]
          exact hne
        | ok items =>
          dsimp only at h
          cases hloop : processLoop items [] with
          | mk cache flag =>
            rw [hloop] at h
            cases flag <;> dsimp only at h <;>
              simp only [Option.some.injEq, Prod.mk.injEq] at h <;>
              rw [← h.2.2] <;> exact hne

/-- Witness for claim C3: at 10 minutes the call is a cached no-op; at
31 minutes the call issues the request at offset 0. -/
theorem freshness_window_witness :
    (refresh_menu exState1 600 false [] = some (true, exState1, [])) ∧
    ([0] ≠ ([] : List Nat)) :=
  ⟨(freshness_window exState1 0 600 [] rfl).1 (by decide),
   (freshness_window exState1 0 1860 [Except.ok []] rfl).2 (by decide) true
     { menu_cache := [], last_refresh := some 1860 } [0] rfl⟩

/-- Claim C4: on page responses of sizes limit, limit, limit, k with
k < limit, the fetch loop issues exactly four requests at offsets 0,
limit, 2*limit and 3*limit and returns all pages concatenated; in
general, a page with fewer than `limit` items (in particular an empty
one) ends the loop right after its own request. -/
theorem pagination (limit k : Nat) (p1 p2 p3 p4 : List JVal)
    (h1 : p1.length = limit) (h2 : p2.length = limit) (h3 : p3.length = limit)
    (h4 : p4.length = k) (hk : k < limit) :
    (fetchLoop limit [Except.ok p1, Except.ok p2, Except.ok p3, Except.ok p4] 0 =
       some (.ok (p1 ++ p2 ++ p3 ++ p4), [0, limit, 2 * limit, 3 * limit]) ∧
     (p1 ++ p2 ++ p3 ++ p4).length = 3 * limit + k) ∧
    (∀ (page : List JVal) (rest : List Page) (off : Nat), page.length < limit →
       ∃ res, fetchLoop limit (Except.ok page :: rest) off = some (res, [off])) := by
  have hl0 : 0 < limit := Nat.lt_of_le_of_lt (Nat.zero_le k) hk
  have hstop : ∀ (page : List JVal) (rest : List Page) (off : Nat), page.length < limit →
      ∃ res, fetchLoop limit (Except.ok page :: rest) off = some (res, [off]) := by
    intro page rest off hlen
    by_cases hemp : page.isEmpty
    · exact ⟨.ok [], by simp [fetchLoop, hemp]⟩
    · exact ⟨.ok page, by simp [fetchLoop, hemp, hlen]⟩
  have hne : ∀ (p : List JVal), p.length = limit → p.isEmpty = false := by
    intro p hp
    cases p with
    | nil => simp at hp; omega
    | cons a as => rfl
  have e2 : limit + limit = 2 * limit := by ring
  have e3 : limit + limit + limit = 3 * limit := by ring
  refine ⟨⟨?_, ?_⟩, hstop⟩
  · by_cases hp4 : p4.isEmpty = true
    · have hp4e : p4 = [] := by
        cases p4 with
        | nil => rfl
        | cons a as => simp [List.isEmpty] at hp4
      rw [hp4e]
      simp [fetchLoop, hne p1 h1, hne p2 h2, hne p3 h3, h1, h2, h3, e2, e3]
      omega
    · have hlen4 : p4.length < limit := by omega
      simp [fetchLoop, hne p1 h1, hne p2 h2, hne p3 h3, h1, h2, h3, hp4, hlen4, e2, e3]
      omega
  · simp [h1, h2, h3, h4]
    ring

/-- Witness for claim C4 with limit 2 and a final page of one item. -/
theorem pagination_witness :
    fetchLoop 2 [Except.ok [exItem67, exItem67], Except.ok [exItem67, exItem67],
        Except.ok [exItem67, exItem67], Except.ok [exItem67]] 0 =
      some (.ok ([exItem67, exItem67] ++ [exItem67, exItem67] ++ [exItem67, exItem67]
        ++ [exItem67]), [0, 2, 2 * 2, 3 * 2]) ∧
    (([exItem67, exItem67] ++ [exItem67, exItem67] ++ [exItem67, exItem67]
        ++ [exItem67]).length = 3 * 2 + 1) :=
  (pagination 2 1 [exItem67, exItem67] [exItem67, exItem67] [exItem67, exItem67] [exItem67]
    rfl rfl rfl rfl (by decide)).1

/-- Claim C2 is false on the code: the raw name
"67. Chicken Biryani" is emitted with its ordinal number intact, not
stripped to "Chicken Biryani" - line 137 keeps the item name exactly as
received from the API. -/
theorem ordinal_not_stripped :
    (processLoop [exItem67] []).2 = true ∧
    (processLoop [exItem67] []).1.map (fun m => m.name) = [.str "67. Chicken Biryani"] ∧
    JVal.str "67. Chicken Biryani" ≠ JVal.str "Chicken Biryani" := by
  refine ⟨rfl, rfl, ?_⟩
  intro h
  injection h with h2
  exact absurd h2 (by decide)

/-- Claim C2 (amended): no name cleanup is performed: every emitted
entry carries, verbatim, the raw `name` field (defaulted to the empty
string) of the item of the input list it was built from. -/
theorem emitted_names_verbatim (l s : List JVal) (m : MenuItem)
    (h : m ∈ (processLoop l s).1) :
    ∃ f, JVal.obj f ∈ l ∧ m.name = lookupD f "name" (.str "") := by
  obtain ⟨x, s2, i, hx, he⟩ := processLoop_mem l s m h
  obtain ⟨f, hxf, hname, _⟩ := processItem_emits he
  exact ⟨f, hxf ▸ hx, hname⟩

/-- Witness for the amended claim C2 on the ordinal-named item. -/
theorem emitted_names_verbatim_witness :
    ∃ f, JVal.obj f ∈ [exItem67] ∧ exEmitted67.name = lookupD f "name" (.str "") :=
  emitted_names_verbatim [exItem67] [] exEmitted67
    (by rw [show (processLoop [exItem67] []).1 = [exEmitted67] from rfl]
        exact List.mem_cons_self ..)

/-- Claim C5 is false on the code as stated: two raw items share the
non-empty id "X", yet the single emitted entry is built from the second
occurrence (name "second"), not the first, because the first occurrence
is dropped by the zero-price filter before the id is recorded. -/
theorem dedup_counterexample :
    (processLoop [exDupA, exDupB] []).2 = true ∧
    (processLoop [exDupA, exDupB] []).1.map (fun m => m.name) = [.str "second"] ∧
    idOf exDupA = idOf exDupB ∧
    truthy (idOf exDupA) = true ∧
    JVal.str "second" ≠ JVal.str "first" := by
  refine ⟨rfl, rfl, rfl, rfl, ?_⟩
  intro h
  injection h with h2
  exact absurd h2 (by decide)

/-- Claim C5 (amended): on well-formed items the loop emits exactly the
entries of `firstWins`, and for every id class `i`, the occurrences kept
are exactly the first of the occurrences that survive the whitelist,
price and truthiness filters: the first survivor wins, and at most one
entry per id is produced. -/
theorem dedup_first_survivor (l : List JVal) (hok : ∀ x ∈ l, itemOK x = true) :
    processLoop l [] = ((firstWins l []).map emit, true) ∧
    ∀ i : JVal, (firstWins l []).filter (fun y => pyEq (idOf y) i) =
      ((l.filter passesB).filter (fun y => pyEq (idOf y) i)).take 1 :=
  ⟨processLoop_eq_firstWins l [] hok, fun i => firstWins_filter l [] i rfl⟩

/-- Witness for the amended claim C5 on the duplicate-id pair: the
surviving occurrence is the second item, once. -/
theorem dedup_first_survivor_witness :
    (processLoop [exDupA, exDupB] [] = ((firstWins [exDupA, exDupB] []).map emit, true)) ∧
    ((firstWins [exDupA, exDupB] []).filter (fun y => pyEq (idOf y) (.str "X")) = [exDupB]) :=
  ⟨(dedup_first_survivor [exDupA, exDupB] (by decide)).1,
   by rw [(dedup_first_survivor [exDupA, exDupB] (by decide)).2 (.str "X")]; rfl⟩

/-- Claim C6: an item none of whose category references is whitelisted
is excluded entirely (a non-raising loop iteration on it yields no
entry, and the dedup pass never keeps it); when some reference matches,
the first matching reference supplies the emitted category name via its
`name` field. -/
theorem whitelist_filtering (f cf : List (String × JVal)) (elems : List JVal)
    (hcats : lookupD f "categories" (.obj []) = .obj cf)
    (he1 : hasKey cf "elements" = true)
    (he2 : lookupD cf "elements" .null = .arr elems) :
    ((∀ c ∈ elems, isWLRef c = false) →
       (∀ (s : List JVal) (r : Option (MenuItem × JVal)),
          processItem (.obj f) s = .ok r → r = none) ∧
       (∀ (l s : List JVal), JVal.obj f ∉ firstWins l s)) ∧
    (∀ c, elems.find? isWLRef = some c →
       ∀ (s : List JVal) (m : MenuItem) (i : JVal),
         processItem (.obj f) s = .ok (some (m, i)) → m.category = refNameD c) := by
  constructor
  · intro hno
    have hres : resolveCategory (.obj cf) = none := by
      simp only [resolveCategory, he1, if_true, he2]
      by_cases hemp : elems.isEmpty = true
      · simp [hemp]
      · simp only [hemp, Bool.false_eq_true, if_false]
        rw [findCat_eq_find]
        rw [List.find?_eq_none.mpr (fun x hx => by rw [hno x hx]; simp)]
        rfl
    constructor
    · intro s r h
      cases r with
      | none => rfl
      | some p =>
        obtain ⟨m, i⟩ := p
        obtain ⟨f2, hf2, _, _, _, hcat, _⟩ := processItem_emits h
        injection hf2 with hff
        subst hff
        rw [hcats, hres] at hcat
        cases hcat
    · intro l s hmem
      have hp := mem_firstWins_passes hmem
      simp only [passesB, hcats, hres] at hp
      simp at hp
  · intro c hfind s m i h
    obtain ⟨f2, hf2, _, _, _, hcat, _⟩ := processItem_emits h
    injection hf2 with hff
    subst hff
    rw [hcats] at hcat
    have hne : elems.isEmpty = false := by
      cases elems with
      | nil => simp at hfind
      | cons a as => rfl
    have hres : resolveCategory (.obj cf) = some (refNameD c) := by
      simp only [resolveCategory, he1, if_true, he2, hne, Bool.false_eq_true, if_false]
      rw [findCat_eq_find, hfind]
      rfl
    rw [hres] at hcat
    injection hcat with h2
    exact h2.symm

/-- Witness for claim C6: the two-reference item takes its category
from its second, whitelisted reference (Desserts), and a successful
iteration on it emits exactly that. -/
theorem whitelist_filtering_witness :
    exEmittedMultiRef.category = refNameD exCatDesserts ∧
    refNameD exCatDesserts = .str "Desserts" :=
  ⟨(whitelist_filtering exMultiRefFields
      [("elements", .arr [exCatUnknown, exCatDesserts])] [exCatUnknown, exCatDesserts]
      rfl rfl rfl).2 exCatDesserts rfl [] exEmittedMultiRef (.str "M1") rfl,
   rfl⟩

/-- Claim C7: in every reachable cache state no entry has price zero,
and hence no entry of any `get_menu` output has price zero: a raw item
with zero price is skipped before anything is appended. -/
theorem no_zero_price (st : CacheState) (h : Reachable st) :
    (∀ m ∈ st.menu_cache, m.price ≠ 0) ∧
    (∀ (now : Int) (pages : List Page) (out : List MenuItem) (ok : Bool)
       (st2 : CacheState) (offs : List Nat),
       get_menu st now pages = some (out, ok, st2, offs) → ∀ m ∈ out, m.price ≠ 0) := by
  have main : ∀ (st2 : CacheState), Reachable st2 → ∀ m ∈ st2.menu_cache, m.price ≠ 0 := by
    intro st2 h2
    induction h2 with
    | init => intro m hm; simp at hm
    | step hprev hr ih =>
      intro m hm
      rcases refresh_cases hr with ⟨_, hst, _⟩ | ⟨_, hst, _⟩ | ⟨items, _, _, hmc, _, _⟩
      · rw [hst] at hm; exact ih m hm
      · rw [hst] at hm; exact ih m hm
      · rw [hmc] at hm
        exact processLoop_price items [] m hm
  refine ⟨main st h, ?_⟩
  intro now pages out ok st2 offs hg m hm
  unfold get_menu at hg
  cases hr : refresh_menu st now false pages with
  | none => rw [hr] at hg; cases hg
  | some r =>
    rw [hr] at hg
    obtain ⟨ok2, st3, offs2⟩ := r
    dsimp only at hg
    simp only [Option.some.injEq, Prod.mk.injEq] at hg
    obtain ⟨hout, _, hst3, _⟩ := hg
    have hreach : Reachable st3 := Reachable.step h hr
    have hmem : m ∈ st3.menu_cache := by
      rw [← hout] at hm
      unfold sortMenu at hm
      exact (List.perm_insertionSort keyRel st3.menu_cache).mem_iff.mp hm
    exact main st3 hreach m hmem

/-- Witness for claim C7: the state reached by one refresh emitting the
10.99 item has no zero price, in particular that item. -/
theorem no_zero_price_witness : exEmitted67.price ≠ 0 := by
  have hstep : refresh_menu { menu_cache := [], last_refresh := none } 1 true
      [Except.ok [exItem67]] =
      some (true, { menu_cache := [exEmitted67], last_refresh := some 1 }, [0]) := rfl
  exact (no_zero_price { menu_cache := [exEmitted67], last_refresh := some 1 }
      (Reachable.step Reachable.init hstep)).1 exEmitted67 (List.mem_cons_self ..)

/-- Claim C8: every list `get_menu` returns is exactly the post-refresh
cache sorted ascending by the key `(category, name)`: a permutation of
all cached entries, pairwise ordered under the case-sensitive
lexicographic tuple comparison. -/
theorem get_menu_sorted (st : CacheState) (now : Int) (pages : List Page)
    (out : List MenuItem) (ok : Bool) (st2 : CacheState) (offs : List Nat)
    (h : get_menu st now pages = some (out, ok, st2, offs)) :
    out = sortMenu st2.menu_cache ∧ out.Perm st2.menu_cache ∧ List.Sorted keyRel out := by
  unfold get_menu at h
  cases hr : refresh_menu st now false pages with
  | none => rw [hr] at h; cases h
  | some r =>
    rw [hr] at h
    obtain ⟨ok2, st3, offs2⟩ := r
    dsimp only at h
    simp only [Option.some.injEq, Prod.mk.injEq] at h
    obtain ⟨hout, _, hst3, _⟩ := h
    subst hst3
    refine ⟨hout.symm, ?_, ?_⟩
    · rw [← hout]
      unfold sortMenu
      exact List.perm_insertionSort keyRel _
    · rw [← hout]
      unfold sortMenu
      haveI : IsTotal MenuItem keyRel := ⟨keyLE_total⟩
      haveI : IsTrans MenuItem keyRel := ⟨keyLE_trans⟩
      exact List.sorted_insertionSort keyRel _

/-- Witness for claim C8: the cached items B/X, A/Z, A/A come back in
the order A/A, A/Z, B/X, a sorted permutation of the cache. -/
theorem get_menu_sorted_witness :
    (get_menu exSortState 0 [] = some ([exSortAA, exSortAZ, exSortBX], true, exSortState, [])) ∧
    [exSortAA, exSortAZ, exSortBX] = sortMenu exSortState.menu_cache ∧
    ([exSortAA, exSortAZ, exSortBX] : List MenuItem).Perm exSortState.menu_cache ∧
    List.Sorted keyRel [exSortAA, exSortAZ, exSortBX] :=
  ⟨rfl, get_menu_sorted exSortState 0 [] [exSortAA, exSortAZ, exSortBX] true exSortState [] rfl⟩

/-- Claim C9: a raw item whose id is absent (hence `None`) or the empty
string is excluded: a non-raising loop iteration on it emits nothing
whatever the other checks say, and the dedup pass never keeps it. -/
theorem falsy_id_excluded (f : List (String × JVal))
    (hid : lookupD f "id" .null = .null ∨ lookupD f "id" .null = .str "") :
    (∀ (s : List JVal) (r : Option (MenuItem × JVal)),
        processItem (.obj f) s = .ok r → r = none) ∧
    (∀ (l s : List JVal), JVal.obj f ∉ firstWins l s) := by
  have ht : truthy (lookupD f "id" .null) = false := by
    rcases hid with h | h <;> rw [h] <;> rfl
  constructor
  · intro s r h
    cases r with
    | none => rfl
    | some p =>
      obtain ⟨m, i⟩ := p
      obtain ⟨f2, hf2, _, _, _, _, _, hi, hti, _⟩ := processItem_emits h
      injection hf2 with hff
      subst hff
      rw [hi, ht] at hti
      cases hti
  · intro l s hmem
    have hp := mem_firstWins_passes hmem
    simp only [passesB, ht] at hp
    simp at hp

/-- Witness for claim C9 on an empty-string id: skipped by the
iteration, never kept by the dedup pass. -/
theorem falsy_id_excluded_witness :
    processItem (.obj exNoIdFields) [] = .ok none ∧
    JVal.obj exNoIdFields ∉ firstWins [JVal.obj exNoIdFields] [] :=
  ⟨rfl, (falsy_id_excluded exNoIdFields (Or.inr rfl)).2 [JVal.obj exNoIdFields] []⟩

/-- Claim C10: when the first whitelisted category reference of an item
has no `name` field, the emitted entry's category is the default label
General, whitelist mode notwithstanding. -/
theorem missing_category_name_defaults (f cf : List (String × JVal)) (elems : List JVal)
    (cfields : List (String × JVal))
    (hcats : lookupD f "categories" (.obj []) = .obj cf)
    (he1 : hasKey cf "elements" = true)
    (he2 : lookupD cf "elements" .null = .arr elems)
    (hfind : elems.find? isWLRef = some (.obj cfields))
    (hname : hasKey cfields "name" = false) :
    ∀ (s : List JVal) (m : MenuItem) (i : JVal),
      processItem (.obj f) s = .ok (some (m, i)) → m.category = .str "General" := by
  intro s m i h
  obtain ⟨f2, hf2, _, _, _, hcat, _⟩ := processItem_emits h
  injection hf2 with hff
  subst hff
  rw [hcats] at hcat
  have hne : elems.isEmpty = false := by
    cases elems with
    | nil => simp at hfind
    | cons a as => rfl
  have hres : resolveCategory (.obj cf) = some (.str "General") := by
    simp only [resolveCategory, he1, if_true, he2, hne, Bool.false_eq_true, if_false]
    rw [findCat_eq_find, hfind]
    simp only [Option.map_some', refNameD]
    rw [lookupD_of_not_hasKey cfields "name" _ hname]
  rw [hres] at hcat
  injection hcat with h2
  exact h2.symm

/-- Witness for claim C10 on the nameless whitelisted reference. -/
theorem missing_category_name_defaults_witness :
    exEmittedNoName.category = .str "General" :=
  missing_category_name_defaults exNoNameFields [("elements", .arr [exCatNoName])]
    [exCatNoName] [("id", .str "KWZCZRAK0ZE7J")] rfl rfl rfl rfl rfl
    [] exEmittedNoName (.str "N1") rfl

end AromaMenu
